import Mathlib

/-!
Verification of the ingress conversion core of traefik-migration-tool.

The Go package `ingress` converts legacy Kubernetes Ingress resources
(annotation-driven) into a rewritten Ingress plus a list of Traefik
Middleware resources.  This file embeds the conversion core
(`convertIngress`, `extractRuleType`, `extractItems`, the list-fragment
expansion of `expandFileContent`, the per-fragment loop of `convertFile`,
and `normalizeObjectName`) as executable Lean definitions and proves the
specified properties about them.

Helper accessors and middleware constructors living in the repository's
`annotations.go` (not part of the sources at hand) are modelled from the
specification; each such definition carries a doc comment starting with
`Modelled from the spec:`.
-/

/-! ## Constants from the source -/

/-- Source constant `middlewareSuffix = "kubernetescrd"`. -/
def middlewareSuffix : String := "kubernetescrd"

/-- Source constant `sslMiddlewareRef = "ssl-redirect@file"`. -/
def sslMiddlewareRef : String := "ssl-redirect@file"

/-- Annotation key written by `convertIngress` for entrypoints
(string literal in the source). -/
def routerEntryPointsKey : String := "traefik.ingress.kubernetes.io/router.entrypoints"

/-- Annotation key written by `convertIngress` for the middleware chain
(string literal in the source). -/
def routerMiddlewaresKey : String := "traefik.ingress.kubernetes.io/router.middlewares"

/-- Modelled from the spec: annotation key constants of `annotations.go`
(not under the sources at hand); exact values of the keys are irrelevant
to the claims, only their distinctness matters. -/
def annotationKubernetesIngressClass : String := "kubernetes.io/ingress.class"

/-- Modelled from the spec: entrypoints annotation key of `annotations.go`. -/
def annotationKubernetesFrontendEntryPoints : String :=
  "ingress.kubernetes.io/frontend-entry-points"

/-- Modelled from the spec: SSL-redirect annotation key of `annotations.go`. -/
def annotationKubernetesSSLRedirect : String := "ingress.kubernetes.io/ssl-redirect"

/-- Modelled from the spec: request-modifier annotation key of `annotations.go`. -/
def annotationKubernetesRequestModifier : String := "ingress.kubernetes.io/request-modifier"

/-- Modelled from the spec: app-root annotation key of `annotations.go`. -/
def annotationKubernetesAppRoot : String := "ingress.kubernetes.io/app-root"

/-- Modelled from the spec: rule-type annotation key of `annotations.go`. -/
def annotationKubernetesRuleType : String := "ingress.kubernetes.io/rule-type"

/-- Modelled from the spec: rewrite-target annotation key of `annotations.go`. -/
def annotationKubernetesRewriteTarget : String := "ingress.kubernetes.io/rewrite-target"

/-- Modelled from the spec: basic-auth annotation key of `annotations.go`. -/
def annotationKubernetesAuthSecret : String := "ingress.kubernetes.io/auth-secret"

/-- Modelled from the spec: whitelist source-range annotation key of `annotations.go`. -/
def annotationKubernetesWhiteListSourceRange : String :=
  "ingress.kubernetes.io/whitelist-source-range"

/-- Modelled from the spec: the fixed set of header-related annotation keys
that trigger synthesis of one aggregated Headers middleware. -/
def headerAnnotationKeys : List String :=
  ["ingress.kubernetes.io/custom-request-headers",
   "ingress.kubernetes.io/custom-response-headers",
   "ingress.kubernetes.io/ssl-proxy-headers",
   "ingress.kubernetes.io/frame-deny"]

/-! ## Data model -/

/-- One HTTP path entry of an ingress rule (`networking.HTTPIngressPath`);
only the `Path` field is read by the conversion core. -/
structure HTTPPath where
  path : String
deriving DecidableEq

/-- One ingress rule (`networking.IngressRule`): a host plus the paths of
`rule.HTTP.Paths`. -/
structure IngressRule where
  host : String
  paths : List HTTPPath
deriving DecidableEq

/-- The slice of a `networking.Ingress` read and rewritten by the conversion
core: namespace, name, the annotations map (string-keyed, unique keys,
modelled as an association list), and the rules. -/
structure Ingress where
  ns : String
  name : String
  annotations : List (String × String)
  rules : List IngressRule
deriving DecidableEq

/-- A synthesized `v1alpha1.Middleware` resource: identified by namespace and
name; `kind` records which middleware family was synthesized. -/
structure Middleware where
  ns : String
  name : String
  kind : String
deriving DecidableEq

/-! ## String helpers mirroring the Go standard library -/

/-- Models the lookup of one Go map entry: `v, ok := annotations[key]`. -/
def lookupAnn (anns : List (String × String)) (key : String) : Option String :=
  List.lookup key anns

/-- Modelled from the spec: the lookup-with-default accessor `getStringValue`
of `annotations.go` — the annotation's value when the key is present,
the default otherwise. -/
def getStringValue (anns : List (String × String)) (key dflt : String) : String :=
  match lookupAnn anns key with
  | some v => v
  | none => dflt

/-- Models a Go map assignment `m[k] = v` on the annotations map: replaces
the value when the key is present, appends the entry otherwise. -/
def setAnn (anns : List (String × String)) (k v : String) : List (String × String) :=
  match anns with
  | [] => [(k, v)]
  | (k2, v2) :: rest => if k2 == k then (k, v) :: rest else (k2, v2) :: setAnn rest k v

/-- Whether the first character list is a leading segment of the second. -/
def leadsWith : List Char → List Char → Bool
  | [], _ => true
  | _ :: _, [] => false
  | a :: as, b :: bs => a == b && leadsWith as bs

/-- Helper for `goContains`: whether `pat` occurs inside `s` as a contiguous
run, scanning every start position. -/
def hasRun (pat : List Char) : List Char → Bool
  | [] => pat.isEmpty
  | c :: rest => leadsWith pat (c :: rest) || hasRun pat rest

/-- Models Go `strings.Contains s sub`: substring occurrence. -/
def goContains (s sub : String) : Bool :=
  hasRun sub.data s.data

/-- Whether `s` ends with `t`, computed on reversed character lists. -/
def strEnds (s t : String) : Bool :=
  leadsWith t.data.reverse s.data.reverse

/-- Models Go `strings.Join names ","`. -/
def joinComma : List String → String
  | [] => ""
  | [x] => x
  | x :: y :: rest => x ++ "," ++ joinComma (y :: rest)

/-! ## Name Normalizer (`normalizeObjectName`) -/

/-- The field-separator predicate of `normalizeObjectName`: a character is a
separator when it is neither a letter nor a number nor a hyphen.  The letter
and number classifiers (`unicode.IsLetter`, `unicode.IsNumber` in the source)
are taken as parameters, so every theorem below holds for the source's full
Unicode tables. -/
def sepOf (isL isN : Char → Bool) (c : Char) : Bool :=
  !(isL c) && !(isN c) && c != '-'

/-- Models Go `strings.FieldsFunc`: splits a character list at separator
characters into the maximal runs of non-separator characters, dropping empty
runs.  `cur` accumulates the current run in reverse. -/
def fieldsAux (p : Char → Bool) (cur : List Char) : List Char → List (List Char)
  | [] => if cur.isEmpty then [] else [cur.reverse]
  | c :: cs =>
    if p c then
      if cur.isEmpty then fieldsAux p [] cs else cur.reverse :: fieldsAux p [] cs
    else fieldsAux p (c :: cur) cs

/-- Models Go `strings.Join fields "-"` at the character-list level. -/
def joinHyphen : List (List Char) → List Char
  | [] => []
  | [f] => f
  | f :: g :: fs => f ++ '-' :: joinHyphen (g :: fs)

/-- Source function `normalizeObjectName`: split the name at every character
that is not a letter, number or hyphen, and join the fields with hyphens.
Parametrized by the letter and number classifiers. -/
def normalizeObjectName (isL isN : Char → Bool) (name : String) : String :=
  String.mk (joinHyphen (fieldsAux (sepOf isL isN) [] name.data))

/-- The normalizer instantiated with the decidable ASCII classifiers, used
when synthesizing concrete middleware names. -/
def normalizeName (s : String) : String :=
  normalizeObjectName Char.isAlpha Char.isDigit s

/-- Checker used to state the hyphen-placement part of the spec: `true` iff
the string has no leading, no trailing and no duplicated hyphen. -/
def noDoubleHyphen : List Char → Bool
  | [] => true
  | [_] => true
  | a :: b :: rest => !(a == '-' && b == '-') && noDoubleHyphen (b :: rest)

/-- Checker for the spec sentence `no leading, trailing, or duplicate
hyphens`. -/
def hyphenTidy (s : String) : Bool :=
  s.data.head? != some '-' && s.data.getLast? != some '-' && noDoubleHyphen s.data

/-! ## Rule-type resolution (`extractRuleType`) -/

/-- Source function `extractRuleType`: resolves the rule-type annotation
(default `PathPrefix`) to the effective matcher and the implicit-strip flag,
or fails on a non-matcher value. -/
def extractRuleType (anns : List (String × String)) : Except String (String × Bool) :=
  let ruleType := getStringValue anns annotationKubernetesRuleType "PathPrefix"
  if ruleType == "Path" || ruleType == "PathPrefix" then Except.ok (ruleType, false)
  else if ruleType == "PathStrip" then Except.ok ("Path", true)
  else if ruleType == "PathPrefixStrip" then Except.ok ("PathPrefix", true)
  else if ruleType == "ReplacePath" then Except.ok (ruleType, false)
  else Except.error ("cannot use non-matcher rule: " ++ ruleType)

/-! ## Middleware synthesis helpers (annotations.go, modelled) -/

/-- Modelled from the spec: step 5 — when the legacy basic-auth annotation is
present, synthesize one BasicAuth middleware named after the owning
resource. -/
def getAuthMiddleware (ing : Ingress) : Option Middleware :=
  if getStringValue ing.annotations annotationKubernetesAuthSecret "" != "" then
    some (Middleware.mk ing.ns (ing.name ++ "-basic-auth") "BasicAuth")
  else none

/-- Modelled from the spec: step 6 — when any of the fixed header-related
annotations is present, synthesize one aggregated Headers middleware. -/
def getHeadersMiddleware (ing : Ingress) : Option Middleware :=
  if headerAnnotationKeys.any (fun k => getStringValue ing.annotations k "" != "") then
    some (Middleware.mk ing.ns (ing.name ++ "-headers") "Headers")
  else none

/-- Modelled from the spec: step 7 — when the source-range annotation is
present, synthesize one IPWhiteList middleware. -/
def getWhiteList (ing : Ingress) : Option Middleware :=
  if getStringValue ing.annotations annotationKubernetesWhiteListSourceRange "" != "" then
    some (Middleware.mk ing.ns (ing.name ++ "-whitelist") "IPWhiteList")
  else none

/-- Splits a character list at the first colon, when one occurs. -/
def splitColon : List Char → Option (List Char × List Char)
  | [] => none
  | c :: rest =>
    if c == ':' then some ([], rest)
    else (splitColon rest).map (fun pr => (c :: pr.1, pr.2))

/-- Modelled from the spec: step 8 — parse of the request-modifier mini-DSL
(`<Kind>: <argument>` with a known modifier kind); yields a middleware or a
parse error. -/
def parseRequestModifier (ns value name : String) : Except String Middleware :=
  match splitColon value.data with
  | none => Except.error ("invalid request modifier: " ++ value)
  | some (k, _) =>
    let kind := String.mk k
    if kind == "AddPrefix" || kind == "ReplacePath" || kind == "ReplacePathRegex" then
      Except.ok (Middleware.mk ns (name ++ "-request-modifier") kind)
    else Except.error ("unknown request modifier: " ++ kind)

/-- Modelled from the spec: step 9 — when the legacy redirect annotations are
present, synthesize one RedirectRegex middleware. -/
def getFrontendRedirect (ns nm : String) (anns : List (String × String)) : Option Middleware :=
  let regex := getStringValue anns "ingress.kubernetes.io/redirect-regex" ""
  let replacement := getStringValue anns "ingress.kubernetes.io/redirect-replacement" ""
  if regex != "" && replacement != "" then
    some (Middleware.mk ns (nm ++ "-redirect") "RedirectRegex")
  else none

/-- Modelled from the spec: step 11 — per-path app-root redirect middleware,
synthesized when the app-root annotation is set and the path applies; named
from the normalized host+path discriminator. -/
def getFrontendRedirectAppRoot (ns nm : String) (anns : List (String × String))
    (hostPath pathStr : String) : Option Middleware :=
  let appRoot := getStringValue anns annotationKubernetesAppRoot ""
  if appRoot != "" && pathStr == "/" then
    some (Middleware.mk ns (normalizeName hostPath ++ "-app-root") "RedirectRegex")
  else none

/-- Modelled from the spec: step 11 — per-path StripPrefix middleware (source
function `getStripPrefix`), named from the normalized host+path
discriminator. -/
def getStripPrefixMid (p : HTTPPath) (nm ns : String) : Middleware :=
  Middleware.mk ns (normalizeName nm ++ "-strip-prefix") "StripPrefix"

/-- Modelled from the spec: step 11 — per-path ReplacePathRegex middleware
translating the path pattern to the rewrite target. -/
def getReplacePathRegex (rule : IngressRule) (p : HTTPPath) (ns target : String) : Middleware :=
  Middleware.mk ns (normalizeName (rule.host ++ p.path) ++ "-replace-path-regex")
    "ReplacePathRegex"

/-! ## The annotation compiler (`convertIngress`) -/

/-- The accumulator of `convertIngress`: the middleware reference names in
synthesis order, and the synthesized middleware resources in synthesis
order. -/
abbrev MwAcc := List String × List Middleware

/-- The reference string appended for a synthesized middleware:
`fmt.Sprintf("%s-%s@%s", namespace, name, middlewareSuffix)` in the source. -/
def mwRef (m : Middleware) : String :=
  m.ns ++ "-" ++ m.name ++ "@" ++ middlewareSuffix

/-- Appends one synthesized middleware together with its reference, as every
synthesis site of `convertIngress` does. -/
def addMw (acc : MwAcc) (m : Middleware) : MwAcc :=
  (acc.1 ++ [mwRef m], acc.2 ++ [m])

/-- Appends an optional middleware (the `if mid != nil` pattern of the
source). -/
def addOpt (acc : MwAcc) (o : Option Middleware) : MwAcc :=
  match o with
  | some m => addMw acc m
  | none => acc

/-- The body of the per-path loop of `convertIngress` (source lines 299-325):
for a non-empty path, optionally synthesize the StripPrefix middleware, then
handle the rewrite-target annotation — which aborts the whole conversion when
the rule type is `ReplacePath` — and finally the per-path app-root
redirect. -/
def convertPath (ing : Ingress) (rt : String) (strip : Bool) (rule : IngressRule)
    (p : HTTPPath) (acc : MwAcc) : Option MwAcc :=
  if 0 < p.path.length then
    let acc1 := if strip then addMw acc (getStripPrefixMid p (rule.host ++ p.path) ing.ns)
                else acc
    let rewriteTarget := getStringValue ing.annotations annotationKubernetesRewriteTarget ""
    if rewriteTarget != "" then
      if rt == "ReplacePath" then none
      else
        let acc2 := addMw acc1 (getReplacePathRegex rule p ing.ns rewriteTarget)
        some (addOpt acc2 (getFrontendRedirectAppRoot ing.ns ing.name ing.annotations
          (rule.host ++ p.path) p.path))
    else
      some (addOpt acc1 (getFrontendRedirectAppRoot ing.ns ing.name ing.annotations
        (rule.host ++ p.path) p.path))
  else
    some (addOpt acc (getFrontendRedirectAppRoot ing.ns ing.name ing.annotations
      (rule.host ++ p.path) p.path))

/-- The per-path loop over one rule's paths. -/
def convertPaths (ing : Ingress) (rt : String) (strip : Bool) (rule : IngressRule) :
    List HTTPPath → MwAcc → Option MwAcc
  | [], acc => some acc
  | p :: ps, acc =>
    match convertPath ing rt strip rule p acc with
    | none => none
    | some a => convertPaths ing rt strip rule ps a

/-- The per-rule loop of `convertIngress`. -/
def convertRules (ing : Ingress) (rt : String) (strip : Bool) :
    List IngressRule → MwAcc → Option MwAcc
  | [], acc => some acc
  | r :: rs, acc =>
    match convertPaths ing rt strip r r.paths acc with
    | none => none
    | some a => convertRules ing rt strip rs a

/-- Steps 4-9 of `convertIngress` (source lines 245-290): the SSL-redirect
static reference, then the auth, headers, whitelist, request-modifier and
frontend-redirect middlewares, accumulated in source order. -/
def preLoopAcc (ing : Ingress) : MwAcc :=
  let sslRedirect := getStringValue ing.annotations annotationKubernetesSSLRedirect ""
  let acc0 : MwAcc := if sslRedirect != "" then ([sslMiddlewareRef], []) else ([], [])
  let acc1 := addOpt acc0 (getAuthMiddleware ing)
  let acc2 := addOpt acc1 (getHeadersMiddleware ing)
  let acc3 := addOpt acc2 (getWhiteList ing)
  let requestModifier := getStringValue ing.annotations annotationKubernetesRequestModifier ""
  let acc4 :=
    if requestModifier != "" then
      match parseRequestModifier ing.ns requestModifier ing.name with
      | Except.ok m => addMw acc3 m
      | Except.error _ => acc3
    else acc3
  if getStringValue ing.annotations annotationKubernetesAppRoot "" == "" then
    addOpt acc4 (getFrontendRedirect ing.ns ing.name ing.annotations)
  else acc4

/-- Steps 4-11 of `convertIngress`: accumulate the middleware references (in
synthesis order) and the synthesized middleware resources; `none` models the
resource-local aborts (invalid rule type, rewrite-target with
`ReplacePath`). -/
def collectRefs (ing : Ingress) : Option MwAcc :=
  match extractRuleType ing.annotations with
  | Except.error _ => none
  | Except.ok (rt, strip) => convertRules ing rt strip ing.rules (preLoopAcc ing)

/-- Lexicographic character-list comparison, modelling Go's `<` on strings. -/
def listLtB : List Char → List Char → Bool
  | [], [] => false
  | [], _ :: _ => true
  | _ :: _, [] => false
  | a :: as, b :: bs =>
    if a.toNat == b.toNat then listLtB as bs else Nat.blt a.toNat b.toNat

/-- Models Go's `<` on strings (lexicographic). -/
def strLtB (s t : String) : Bool :=
  listLtB s.data t.data

/-- Inserts a middleware into a list sorted by name (`sort.Slice` comparator
`middlewares[i].Name < middlewares[j].Name` in the source). -/
def insertByName (m : Middleware) : List Middleware → List Middleware
  | [] => [m]
  | x :: xs => if strLtB m.name x.name then m :: x :: xs else x :: insertByName m xs

/-- Models the source's `sort.Slice(middlewares, by name)`: sorts the
synthesized middleware resources by name ascending. -/
def sortByName : List Middleware → List Middleware
  | [] => []
  | m :: ms => insertByName m (sortByName ms)

/-- The early-exit gate of `convertIngress`: the ingress-class annotation is
non-empty and does not contain the substring `traefik`. -/
def classGate (ing : Ingress) : Bool :=
  let ingressClass := getStringValue ing.annotations annotationKubernetesIngressClass ""
  decide (0 < ingressClass.length) && !(goContains ingressClass "traefik")

/-- Source function `convertIngress`: either the early class-gate exit with
the unchanged copy and no middlewares, or the full compilation — entrypoints
annotation, middleware accumulation (steps 4-11, which may abort giving
`none`), the comma-joined middleware-chain annotation, and the by-name sort
of the emitted middleware resources. -/
def convertIngress (ing : Ingress) : Option (Ingress × List Middleware) :=
  if classGate ing then some (ing, [])
  else
    let entryPoints := getStringValue ing.annotations annotationKubernetesFrontendEntryPoints ""
    let anns1 := if entryPoints != "" then setAnn ing.annotations routerEntryPointsKey entryPoints
                 else ing.annotations
    match collectRefs ing with
    | none => none
    | some (names, mids) =>
      let anns2 := if 0 < names.length then setAnn anns1 routerMiddlewaresKey (joinComma names)
                   else anns1
      some (Ingress.mk ing.ns ing.name anns2 ing.rules, sortByName mids)

/-! ## List extraction (`extractItems`, `expandFileContent`) -/

/-- A decoded object inside a List-kind fragment's `items` slice: apiVersion,
kind, and the remaining (opaque) payload. -/
structure UObj where
  apiVersion : String
  kind : String
  payload : String
deriving DecidableEq

/-- One element of the decoded `items` slice.  The Go element type is
`interface\x7b\x7d`; an element is either a string-keyed map (`obj`) or some
other YAML value (`nonMap`), on which the source's unchecked type assertion
`elt.(map[string]interface\x7b\x7d)` panics. -/
inductive YamlElt where
  | obj (o : UObj)
  | nonMap (s : String)
deriving DecidableEq

/-- Whether an element is a string-keyed map, the precondition of the
source's type assertion. -/
def isMapElt : YamlElt → Bool
  | YamlElt.obj _ => true
  | YamlElt.nonMap _ => false

/-- The classification test of `extractItems`: the element's apiVersion is
one of the two known ingress identifiers and its kind is `Ingress`. -/
def isIngressItem (o : UObj) : Bool :=
  (o.apiVersion == "extensions/v1beta1" || o.apiVersion == "networking.k8s.io/v1")
    && o.kind == "Ingress"

/-- The classification test lifted to elements (a non-map element is never
convertible; the source panics on it before classifying). -/
def isConvElt : YamlElt → Bool
  | YamlElt.obj o => isIngressItem o
  | YamlElt.nonMap _ => false

/-- Source function `extractItems`: partitions the `items` slice into the
elements to keep and the ingress objects to convert.  The source performs the
unchecked assertion `elt.(map[string]interface\x7b\x7d)` on every element and
panics on a non-map element; the panic is modelled as `none`. -/
def extractItems : List YamlElt → Option (List YamlElt × List UObj)
  | [] => some ([], [])
  | elt :: rest =>
    match elt with
    | YamlElt.nonMap _ => none
    | YamlElt.obj o =>
      match extractItems rest with
      | none => none
      | some (toKeep, toConvert) =>
        if isIngressItem o then some (toKeep, o :: toConvert)
        else some (elt :: toKeep, toConvert)

/-- The List-fragment branch of `expandFileContent` (source lines 160-195):
when every item is kept, the original fragment string is emitted unchanged;
otherwise the residual list (omitted when empty) is re-marshalled and each
convertible item becomes its own fragment.  The external YAML marshaller is a
parameter (`marshalResidual` models `yaml.Marshal` of the list object with
the `items` slice replaced, `marshalItem` models `yaml.Marshal` of one
item). -/
def expandListFragment (marshalResidual : List YamlElt → String)
    (marshalItem : UObj → String) (part : String) (items : List YamlElt) :
    Option (List String) :=
  match extractItems items with
  | none => none
  | some (toKeep, toConvert) =>
    if items.length == toKeep.length then some [part]
    else
      some ((if 0 < toKeep.length then [marshalResidual toKeep] else [])
        ++ toConvert.map marshalItem)

/-! ## Per-file fragment conversion (`convertFile`) -/

/-- The result of the generic YAML decode `createUnstructured`: the only
field the per-fragment loop reads is whether the document is a List kind. -/
structure Unstruct where
  isList : Bool
deriving DecidableEq

/-- The result of the scheme decode `parseYaml`: a legacy ingress, a current
ingress, or some other registered kind. -/
inductive ParsedObj where
  | extIngress (i : Ingress)
  | netIngress (i : Ingress)
  | otherKind
deriving DecidableEq

/-- The external codec collaborators of `convertFile`, passed explicitly:
`createUnstr` models `createUnstructured` (generic YAML decode), `parseObj`
models `parseYaml` (universal scheme decode), `extToNet` models
`extensionsToNetworking`, `encodeIng` models `encodeYaml` applied to
`newIngress.DeepCopyObject()` (whose argument is nil when `convertIngress`
aborted), and `encodeMid` models `encodeYaml` on a middleware. -/
structure FileCodec where
  createUnstr : String → Except String Unstruct
  parseObj : String → Except String ParsedObj
  extToNet : Ingress → Except String Ingress
  encodeIng : Option Ingress → Except String String
  encodeMid : Middleware → Except String String

/-- Encodes the middleware objects one by one, failing on the first encoder
error (source lines 125-131). -/
def encodeMids (fc : FileCodec) : List Middleware → Except String (List String)
  | [] => Except.ok []
  | m :: ms =>
    match fc.encodeMid m with
    | Except.error e => Except.error e
    | Except.ok y =>
      match encodeMids fc ms with
      | Except.error e => Except.error e
      | Except.ok ys => Except.ok (y :: ys)

/-- The conversion-and-encode tail of the fragment loop (source lines
119-131): run `convertIngress`, encode the (possibly nil) rewritten ingress,
then encode every middleware object. -/
def encodeConverted (fc : FileCodec) (ing : Ingress) : Except String (List String) :=
  let res := convertIngress ing
  let objs := match res with
    | some (_, os) => os
    | none => []
  match fc.encodeIng (res.map (fun pr => pr.1)) with
  | Except.error e => Except.error e
  | Except.ok yml =>
    match encodeMids fc objs with
    | Except.error e => Except.error e
    | Except.ok ymls => Except.ok (yml :: ymls)

/-- The body of the per-fragment loop of `convertFile` (source lines 87-131)
for one non-empty fragment: generic decode (failure is returned, aborting the
file), List passthrough, scheme decode (failure keeps the fragment verbatim
and continues), non-ingress passthrough, legacy-schema promotion (failure
aborts the file), and conversion.  The returned list holds the output
fragments this part contributes. -/
def processFragment (fc : FileCodec) (part : String) : Except String (List String) :=
  match fc.createUnstr part with
  | Except.error e => Except.error e
  | Except.ok u =>
    if u.isList then Except.ok [part]
    else
      match fc.parseObj part with
      | Except.error _ => Except.ok [part]
      | Except.ok ParsedObj.otherKind => Except.ok [part]
      | Except.ok (ParsedObj.extIngress ei) =>
        match fc.extToNet ei with
        | Except.error e => Except.error e
        | Except.ok ing => encodeConverted fc ing
      | Except.ok (ParsedObj.netIngress ing) => encodeConverted fc ing

/-- The fragment loop of `convertFile` over the split parts of one file:
empty and newline-only parts are skipped; the first fragment error aborts the
whole file; otherwise the contributed output fragments are concatenated in
order. -/
def convertFragments (fc : FileCodec) : List String → Except String (List String)
  | [] => Except.ok []
  | part :: rest =>
    if part == "\n" || part == "" then convertFragments fc rest
    else
      match processFragment fc part with
      | Except.error e => Except.error e
      | Except.ok fs =>
        match convertFragments fc rest with
        | Except.error e => Except.error e
        | Except.ok more => Except.ok (fs ++ more)

/-- The ascending-by-name relation witnessed by the sorted middleware list:
no later element's name compares below an earlier one's. -/
def nameLe (a b : Middleware) : Prop :=
  strLtB b.name a.name = false

/-- The shape every middleware reference is claimed to have, amended by the
static SSL reference: either the well-known `ssl-redirect@file` constant, or
`namespace ++ "-" ++ name ++ "@" ++ middlewareSuffix`. -/
def refShaped (s : String) : Prop :=
  s = sslMiddlewareRef ∨ ∃ a b, s = a ++ "-" ++ b ++ "@" ++ middlewareSuffix

/-- A concrete codec for evaluating the fragment loop: the fragment `"bad"`
fails the generic YAML decode (as `createUnstructured` does on a malformed
document) and every fragment fails the scheme decode. -/
def fcBad : FileCodec :=
  FileCodec.mk
    (fun s => if s == "bad" then Except.error "error decoding YAML"
              else Except.ok (Unstruct.mk false))
    (fun _ => Except.error "no kind registered")
    (fun i => Except.ok i)
    (fun _ => Except.ok "out")
    (fun _ => Except.ok "out")

/-! ## General helper lemmas -/

theorem lookup_setAnn (anns : List (String × String)) (k v : String) :
    List.lookup k (setAnn anns k v) = some v := by
  induction anns with
  | nil => simp [setAnn, List.lookup]
  | cons hd t ih =>
    obtain ⟨k2, v2⟩ := hd
    by_cases hk : k2 = k
    · subst hk
      simp [setAnn, List.lookup]
    · simp only [setAnn, beq_iff_eq, hk, if_false, List.lookup]
      have : (k == k2) = false := by simp [Ne.symm hk]
      simp [this, ih]

theorem length_pos_of_ne_empty (v : String) (h : v ≠ "") : 0 < v.length := by
  cases v with
  | mk d =>
    cases d with
    | nil => exact absurd rfl h
    | cons c cs => simp [String.length]

theorem strDataAppend (a b : String) : (a ++ b).data = a.data ++ b.data := by
  cases a
  cases b
  rfl

theorem leadsWith_self_append (p r : List Char) : leadsWith p (p ++ r) = true := by
  induction p with
  | nil => rfl
  | cons c cs ih => simp [leadsWith, ih]

/-! ## Lemmas about the by-name sort -/

theorem listLtB_trans (a b c : List Char) (h1 : listLtB a b = true)
    (h2 : listLtB b c = true) : listLtB a c = true := by
  induction a generalizing b c with
  | nil =>
    cases b with
    | nil => simp [listLtB] at h1
    | cons y ys =>
      cases c with
      | nil => simp [listLtB] at h2
      | cons z zs => simp [listLtB]
  | cons x xs ih =>
    cases b with
    | nil => simp [listLtB] at h1
    | cons y ys =>
      cases c with
      | nil => simp [listLtB] at h2
      | cons z zs =>
        simp only [listLtB, beq_iff_eq] at h1 h2 ⊢
        by_cases e1 : x.toNat = y.toNat
        · by_cases e2 : y.toNat = z.toNat
          · have e3 : x.toNat = z.toNat := e1.trans e2
            simp only [e1, if_pos rfl] at h1
            simp only [e2, if_pos rfl] at h2
            simp only [e3, if_pos rfl]
            exact ih ys zs h1 h2
          · have e3 : ¬ x.toNat = z.toNat := by rw [e1]; exact e2
            simp only [if_neg e2] at h2
            simp only [if_neg e3]
            rw [e1]
            exact h2
        · by_cases e2 : y.toNat = z.toNat
          · have e3 : ¬ x.toNat = z.toNat := by rw [← e2]; exact e1
            simp only [if_neg e1] at h1
            simp only [if_neg e3]
            rw [← e2]
            exact h1
          · simp only [if_neg e1] at h1
            simp only [if_neg e2] at h2
            have l1 : x.toNat < y.toNat := by simpa [Nat.blt_eq] using h1
            have l2 : y.toNat < z.toNat := by simpa [Nat.blt_eq] using h2
            have l3 : x.toNat < z.toNat := Nat.lt_trans l1 l2
            have e3 : ¬ x.toNat = z.toNat := Nat.ne_of_lt l3
            simp [if_neg e3, Nat.blt_eq, l3]

theorem listLtB_asymm (a b : List Char) (h : listLtB a b = true) :
    listLtB b a = false := by
  induction a generalizing b with
  | nil =>
    cases b with
    | nil => simp [listLtB] at h
    | cons y ys => simp [listLtB]
  | cons x xs ih =>
    cases b with
    | nil => simp [listLtB] at h
    | cons y ys =>
      simp only [listLtB, beq_iff_eq] at h ⊢
      by_cases e1 : x.toNat = y.toNat
      · simp only [e1, if_pos rfl] at h
        simp only [e1.symm, if_pos rfl]
        exact ih ys h
      · simp only [if_neg e1] at h
        have l1 : x.toNat < y.toNat := by simpa [Nat.blt_eq] using h
        have e2 : ¬ y.toNat = x.toNat := Nat.ne_of_gt l1
        have hnot : ¬ y.toNat < x.toNat := Nat.not_lt.mpr (Nat.le_of_lt l1)
        simp only [if_neg e2, Bool.eq_false_iff, ne_eq, Nat.blt_eq]
        exact hnot

theorem strLtB_trans (a b c : String) (h1 : strLtB a b = true)
    (h2 : strLtB b c = true) : strLtB a c = true :=
  listLtB_trans a.data b.data c.data h1 h2

theorem strLtB_asymm (a b : String) (h : strLtB a b = true) : strLtB b a = false :=
  listLtB_asymm a.data b.data h

theorem nameLe_of_lt (a b : Middleware) (h : strLtB a.name b.name = true) : nameLe a b :=
  strLtB_asymm a.name b.name h

theorem nameLe_total (a b : Middleware) (h : strLtB a.name b.name = false) : nameLe b a :=
  h

theorem nameLe_trans_lt (a b c : Middleware) (h1 : strLtB a.name b.name = true)
    (h2 : nameLe b c) : nameLe a c := by
  unfold nameLe at h2 ⊢
  by_cases h3 : strLtB c.name a.name = true
  · exfalso
    have h4 : strLtB c.name b.name = true := strLtB_trans c.name a.name b.name h3 h1
    rw [h2] at h4
    exact Bool.false_ne_true h4
  · simpa using h3

theorem perm_insertByName (m : Middleware) (l : List Middleware) :
    List.Perm (insertByName m l) (m :: l) := by
  induction l with
  | nil => simp [insertByName]
  | cons x xs ih =>
    unfold insertByName
    by_cases hc : strLtB m.name x.name = true
    · rw [if_pos hc]
    · rw [if_neg hc]
      exact List.Perm.trans (List.Perm.cons x ih) (List.Perm.swap m x xs)

theorem pairwise_insertByName (m : Middleware) (l : List Middleware)
    (h : List.Pairwise nameLe l) : List.Pairwise nameLe (insertByName m l) := by
  induction l with
  | nil => simp [insertByName, List.pairwise_cons]
  | cons x xs ih =>
    rw [List.pairwise_cons] at h
    obtain ⟨hx, hxs⟩ := h
    unfold insertByName
    by_cases hc : strLtB m.name x.name = true
    · rw [if_pos hc]
      refine List.Pairwise.cons ?_ (List.Pairwise.cons hx hxs)
      intro z hz
      rcases List.mem_cons.mp hz with rfl | hz2
      · exact nameLe_of_lt m z hc
      · exact nameLe_trans_lt m x z hc (hx z hz2)
    · have hc2 : strLtB m.name x.name = false := by simpa using hc
      rw [if_neg hc]
      refine List.Pairwise.cons ?_ (ih hxs)
      intro z hz
      have hz3 : z ∈ m :: xs := (perm_insertByName m xs).mem_iff.mp hz
      rcases List.mem_cons.mp hz3 with rfl | hz4
      · exact hc2
      · exact hx z hz4

theorem pairwise_sortByName (l : List Middleware) :
    List.Pairwise nameLe (sortByName l) := by
  induction l with
  | nil => simp [sortByName]
  | cons m ms ih => exact pairwise_insertByName m (sortByName ms) ih

theorem perm_sortByName (l : List Middleware) : List.Perm (sortByName l) l := by
  induction l with
  | nil => simp [sortByName]
  | cons m ms ih =>
    exact List.Perm.trans (perm_insertByName m (sortByName ms)) (List.Perm.cons m ih)

/-! ## Lemmas about the field splitter -/

theorem fieldsAux_sep_free (p : Char → Bool) (cs : List Char) :
    ∀ cur, (∀ c ∈ cur, p c = false) →
      ∀ f ∈ fieldsAux p cur cs, ∀ c ∈ f, p c = false := by
  induction cs with
  | nil =>
    intro cur hcur f hf c hc
    simp only [fieldsAux] at hf
    by_cases he : cur.isEmpty
    · rw [if_pos he] at hf
      cases hf
    · rw [if_neg he] at hf
      have hfe : f = cur.reverse := by simpa using hf
      subst hfe
      exact hcur c (List.mem_reverse.mp hc)
  | cons d ds ih =>
    intro cur hcur f hf c hc
    simp only [fieldsAux] at hf
    by_cases hd : p d = true
    · rw [if_pos hd] at hf
      by_cases he : cur.isEmpty
      · rw [if_pos he] at hf
        exact ih [] (by simp) f hf c hc
      · rw [if_neg he] at hf
        rcases List.mem_cons.mp hf with rfl | hf2
        · exact hcur c (List.mem_reverse.mp hc)
        · exact ih [] (by simp) f hf2 c hc
    · rw [if_neg hd] at hf
      refine ih (d :: cur) ?_ f hf c hc
      intro c2 hc2
      rcases List.mem_cons.mp hc2 with rfl | hc3
      · simpa using hd
      · exact hcur c2 hc3

theorem fieldsAux_no_sep (p : Char → Bool) (cs : List Char) :
    ∀ cur, (∀ c ∈ cs, p c = false) →
      fieldsAux p cur cs =
        if (cur.reverse ++ cs).isEmpty then [] else [cur.reverse ++ cs] := by
  induction cs with
  | nil =>
    intro cur _
    simp only [fieldsAux, List.append_nil]
    cases cur with
    | nil => simp
    | cons c cs2 => simp
  | cons d ds ih =>
    intro cur hall
    have hd : p d = false := hall d (List.mem_cons_self d ds)
    simp only [fieldsAux]
    rw [if_neg (by simp [hd])]
    rw [ih (d :: cur) (fun c hc => hall c (List.mem_cons_of_mem d hc))]
    have hrw : (d :: cur).reverse ++ ds = cur.reverse ++ (d :: ds) := by
      simp [List.reverse_cons, List.append_assoc]
    rw [hrw]

theorem joinHyphen_mem (fs : List (List Char)) (c : Char) (hc : c ∈ joinHyphen fs) :
    c = '-' ∨ ∃ f ∈ fs, c ∈ f := by
  induction fs with
  | nil => simp [joinHyphen] at hc
  | cons f gs ih =>
    cases gs with
    | nil =>
      simp only [joinHyphen] at hc
      exact Or.inr ⟨f, List.mem_cons_self f [], hc⟩
    | cons g gs2 =>
      simp only [joinHyphen] at hc
      rcases List.mem_append.mp hc with h1 | h2
      · exact Or.inr ⟨f, by simp, h1⟩
      · rcases List.mem_cons.mp h2 with rfl | h3
        · exact Or.inl rfl
        · rcases ih h3 with h4 | h5
          · exact Or.inl h4
          · obtain ⟨f2, hf2, hcf2⟩ := h5
            exact Or.inr ⟨f2, by simp [hf2], hcf2⟩

theorem normalizeObjectName_chars (isL isN : Char → Bool) (name : String) :
    ∀ c ∈ (normalizeObjectName isL isN name).data, sepOf isL isN c = false := by
  intro c hc
  have hc2 : c ∈ joinHyphen (fieldsAux (sepOf isL isN) [] name.data) := hc
  rcases joinHyphen_mem _ c hc2 with rfl | h2
  · simp [sepOf]
  · obtain ⟨f, hf, hcf⟩ := h2
    exact fieldsAux_sep_free (sepOf isL isN) name.data [] (by simp) f hf c hcf

theorem normalizeObjectName_idem_aux (isL isN : Char → Bool) (name : String) :
    normalizeObjectName isL isN (normalizeObjectName isL isN name) =
      normalizeObjectName isL isN name := by
  have hfree : ∀ c ∈ (normalizeObjectName isL isN name).data, sepOf isL isN c = false :=
    normalizeObjectName_chars isL isN name
  show String.mk (joinHyphen (fieldsAux (sepOf isL isN) []
    (normalizeObjectName isL isN name).data)) = normalizeObjectName isL isN name
  rw [fieldsAux_no_sep (sepOf isL isN) (normalizeObjectName isL isN name).data [] hfree]
  cases hd : (normalizeObjectName isL isN name).data with
  | nil =>
    simp only [List.reverse_nil, List.nil_append, List.isEmpty_nil, if_pos]
    cases hn : normalizeObjectName isL isN name with
    | mk d =>
      rw [hn] at hd
      simp at hd
      rw [hd]
      rfl
  | cons c cs =>
    simp only [List.reverse_nil, List.nil_append, List.isEmpty_cons, Bool.false_eq_true,
      if_false, joinHyphen]
    cases hn : normalizeObjectName isL isN name with
    | mk d =>
      rw [hn] at hd
      simp at hd
      rw [hd]

theorem sepOf_false_charset (isL isN : Char → Bool) (c : Char)
    (h : sepOf isL isN c = false) : (isL c || isN c || (c == '-')) = true := by
  cases hL : isL c
  · cases hN : isN c
    · simp only [sepOf, hL, hN, Bool.not_false, Bool.true_and] at h
      have : c = '-' := by simpa using h
      simp [this]
    · simp [hN]
  · simp [hL]

/-! ## Lemmas about the per-rule, per-path loop -/

theorem convertPath_inert (ing : Ingress) (rt : String) (rule : IngressRule) (p : HTTPPath)
    (acc : MwAcc)
    (hrw : getStringValue ing.annotations annotationKubernetesRewriteTarget "" = "")
    (har : getStringValue ing.annotations annotationKubernetesAppRoot "" = "") :
    convertPath ing rt false rule p acc = some acc := by
  have happ : getFrontendRedirectAppRoot ing.ns ing.name ing.annotations
      (rule.host ++ p.path) p.path = none := by
    unfold getFrontendRedirectAppRoot
    rw [har]
    simp
  unfold convertPath
  rw [hrw]
  simp [happ, addOpt]

theorem convertPaths_inert (ing : Ingress) (rt : String) (rule : IngressRule)
    (hrw : getStringValue ing.annotations annotationKubernetesRewriteTarget "" = "")
    (har : getStringValue ing.annotations annotationKubernetesAppRoot "" = "") :
    ∀ ps acc, convertPaths ing rt false rule ps acc = some acc := by
  intro ps
  induction ps with
  | nil => intro acc; rfl
  | cons p0 ps ih =>
    intro acc
    unfold convertPaths
    rw [convertPath_inert ing rt rule p0 acc hrw har]
    exact ih acc

theorem convertRules_inert (ing : Ingress) (rt : String)
    (hrw : getStringValue ing.annotations annotationKubernetesRewriteTarget "" = "")
    (har : getStringValue ing.annotations annotationKubernetesAppRoot "" = "") :
    ∀ rs acc, convertRules ing rt false rs acc = some acc := by
  intro rs
  induction rs with
  | nil => intro acc; rfl
  | cons r0 rs ih =>
    intro acc
    unfold convertRules
    rw [convertPaths_inert ing rt r0 hrw har]
    exact ih acc

theorem convertPath_abort (ing : Ingress) (strip : Bool) (rule : IngressRule) (p : HTTPPath)
    (acc : MwAcc) (w : String)
    (hrw : getStringValue ing.annotations annotationKubernetesRewriteTarget "" = w)
    (hw : w ≠ "") (hp : p.path ≠ "") :
    convertPath ing "ReplacePath" strip rule p acc = none := by
  unfold convertPath
  rw [if_pos (length_pos_of_ne_empty p.path hp)]
  rw [hrw]
  have hwb : (w != "") = true := by simp [bne_iff_ne, hw]
  simp [hwb]

theorem convertPath_empty (ing : Ingress) (rt : String) (strip : Bool) (rule : IngressRule)
    (p : HTTPPath) (acc : MwAcc) (hp : p.path = "") :
    convertPath ing rt strip rule p acc =
      some (addOpt acc (getFrontendRedirectAppRoot ing.ns ing.name ing.annotations
        (rule.host ++ p.path) p.path)) := by
  unfold convertPath
  rw [if_neg (by rw [hp]; simp)]

theorem convertPaths_abort (ing : Ingress) (strip : Bool) (rule : IngressRule) (w : String)
    (hrw : getStringValue ing.annotations annotationKubernetesRewriteTarget "" = w)
    (hw : w ≠ "") :
    ∀ ps acc, (∃ p ∈ ps, p.path ≠ "") →
      convertPaths ing "ReplacePath" strip rule ps acc = none := by
  intro ps
  induction ps with
  | nil =>
    intro acc h
    simp at h
  | cons p0 ps ih =>
    intro acc h
    by_cases hp0 : p0.path = ""
    · obtain ⟨p, hpmem, hpne⟩ := h
      have hptail : p ∈ ps := by
        rcases List.mem_cons.mp hpmem with rfl | h2
        · exact absurd hp0 hpne
        · exact h2
      unfold convertPaths
      rw [convertPath_empty ing "ReplacePath" strip rule p0 acc hp0]
      exact ih _ ⟨p, hptail, hpne⟩
    · unfold convertPaths
      rw [convertPath_abort ing strip rule p0 acc w hrw hw hp0]

theorem convertPaths_all_empty (ing : Ingress) (rt : String) (strip : Bool)
    (rule : IngressRule) :
    ∀ ps acc, (∀ p ∈ ps, p.path = "") →
      ∃ a, convertPaths ing rt strip rule ps acc = some a := by
  intro ps
  induction ps with
  | nil => intro acc _; exact ⟨acc, rfl⟩
  | cons p0 ps ih =>
    intro acc hall
    have h0 : p0.path = "" := hall p0 (by simp)
    obtain ⟨a, ha⟩ := ih (addOpt acc (getFrontendRedirectAppRoot ing.ns ing.name
      ing.annotations (rule.host ++ p0.path) p0.path)) (fun p hp => hall p (by simp [hp]))
    refine ⟨a, ?_⟩
    unfold convertPaths
    rw [convertPath_empty ing rt strip rule p0 acc h0]
    exact ha

theorem convertRules_abort (ing : Ingress) (strip : Bool) (w : String)
    (hrw : getStringValue ing.annotations annotationKubernetesRewriteTarget "" = w)
    (hw : w ≠ "") :
    ∀ rs acc, (∃ r ∈ rs, ∃ p ∈ r.paths, p.path ≠ "") →
      convertRules ing "ReplacePath" strip rs acc = none := by
  intro rs
  induction rs with
  | nil =>
    intro acc h
    simp at h
  | cons r0 rs ih =>
    intro acc h
    by_cases hr0 : ∃ p ∈ r0.paths, p.path ≠ ""
    · unfold convertRules
      rw [convertPaths_abort ing strip r0 w hrw hw r0.paths acc hr0]
    · push_neg at hr0
      obtain ⟨a, ha⟩ := convertPaths_all_empty ing "ReplacePath" strip r0 r0.paths acc hr0
      obtain ⟨r, hrmem, hrex⟩ := h
      have hrtail : r ∈ rs := by
        rcases List.mem_cons.mp hrmem with rfl | h2
        · obtain ⟨p, hp1, hp2⟩ := hrex
          exact absurd (hr0 p hp1) hp2
        · exact h2
      unfold convertRules
      rw [ha]
      exact ih a ⟨r, hrtail, hrex⟩

/-! ## Shape of the middleware references -/

theorem refShaped_mwRef (m : Middleware) : refShaped (mwRef m) :=
  Or.inr ⟨m.ns, m.name, rfl⟩

theorem refShaped_addMw (acc : MwAcc) (m : Middleware)
    (h : ∀ s ∈ acc.1, refShaped s) : ∀ s ∈ (addMw acc m).1, refShaped s := by
  intro s hs
  rcases List.mem_append.mp hs with h1 | h2
  · exact h s h1
  · have hsm : s = mwRef m := by simpa using h2
    subst hsm
    exact refShaped_mwRef m

theorem refShaped_addOpt (acc : MwAcc) (o : Option Middleware)
    (h : ∀ s ∈ acc.1, refShaped s) : ∀ s ∈ (addOpt acc o).1, refShaped s := by
  cases o with
  | none => exact h
  | some m => exact refShaped_addMw acc m h

theorem refShaped_convertPath (ing : Ingress) (rt : String) (strip : Bool)
    (rule : IngressRule) (p : HTTPPath) (acc a : MwAcc)
    (hstep : convertPath ing rt strip rule p acc = some a)
    (h : ∀ s ∈ acc.1, refShaped s) : ∀ s ∈ a.1, refShaped s := by
  unfold convertPath at hstep
  by_cases h1 : 0 < p.path.length
  · rw [if_pos h1] at hstep
    by_cases h2 : (getStringValue ing.annotations annotationKubernetesRewriteTarget ""
        != "") = true
    · rw [if_pos h2] at hstep
      by_cases h3 : (rt == "ReplacePath") = true
      · rw [if_pos h3] at hstep
        cases hstep
      · rw [if_neg h3] at hstep
        have ha : a = addOpt (addMw (if strip
            then addMw acc (getStripPrefixMid p (rule.host ++ p.path) ing.ns) else acc)
            (getReplacePathRegex rule p ing.ns (getStringValue ing.annotations
              annotationKubernetesRewriteTarget "")))
            (getFrontendRedirectAppRoot ing.ns ing.name ing.annotations
              (rule.host ++ p.path) p.path) := by
          cases hstep
          rfl
        subst ha
        refine refShaped_addOpt _ _ (refShaped_addMw _ _ ?_)
        by_cases hs : strip
        · rw [if_pos hs]
          exact refShaped_addMw _ _ h
        · rw [if_neg hs]
          exact h
    · rw [if_neg h2] at hstep
      have ha : a = addOpt (if strip
          then addMw acc (getStripPrefixMid p (rule.host ++ p.path) ing.ns) else acc)
          (getFrontendRedirectAppRoot ing.ns ing.name ing.annotations
            (rule.host ++ p.path) p.path) := by
        cases hstep
        rfl
      subst ha
      refine refShaped_addOpt _ _ ?_
      by_cases hs : strip
      · rw [if_pos hs]
        exact refShaped_addMw _ _ h
      · rw [if_neg hs]
        exact h
  · rw [if_neg h1] at hstep
    have ha : a = addOpt acc (getFrontendRedirectAppRoot ing.ns ing.name ing.annotations
        (rule.host ++ p.path) p.path) := by
      cases hstep
      rfl
    subst ha
    exact refShaped_addOpt _ _ h

theorem refShaped_convertPaths (ing : Ingress) (rt : String) (strip : Bool)
    (rule : IngressRule) :
    ∀ ps acc a, convertPaths ing rt strip rule ps acc = some a →
      (∀ s ∈ acc.1, refShaped s) → ∀ s ∈ a.1, refShaped s := by
  intro ps
  induction ps with
  | nil =>
    intro acc a hstep h
    cases hstep
    exact h
  | cons p0 ps ih =>
    intro acc a hstep h
    unfold convertPaths at hstep
    cases hmid : convertPath ing rt strip rule p0 acc with
    | none => rw [hmid] at hstep; cases hstep
    | some b =>
      rw [hmid] at hstep
      exact ih b a hstep (refShaped_convertPath ing rt strip rule p0 acc b hmid h)

theorem refShaped_convertRules (ing : Ingress) (rt : String) (strip : Bool) :
    ∀ rs acc a, convertRules ing rt strip rs acc = some a →
      (∀ s ∈ acc.1, refShaped s) → ∀ s ∈ a.1, refShaped s := by
  intro rs
  induction rs with
  | nil =>
    intro acc a hstep h
    cases hstep
    exact h
  | cons r0 rs ih =>
    intro acc a hstep h
    unfold convertRules at hstep
    cases hmid : convertPaths ing rt strip r0 r0.paths acc with
    | none => rw [hmid] at hstep; cases hstep
    | some b =>
      rw [hmid] at hstep
      exact ih b a hstep (refShaped_convertPaths ing rt strip r0 r0.paths acc b hmid h)

theorem refShaped_preLoopAcc (ing : Ingress) : ∀ s ∈ (preLoopAcc ing).1, refShaped s := by
  unfold preLoopAcc
  have h0 : ∀ s ∈ (if (getStringValue ing.annotations annotationKubernetesSSLRedirect ""
      != "") = true then (([sslMiddlewareRef], []) : MwAcc) else ([], [])).1, refShaped s := by
    split
    · intro s hs
      have : s = sslMiddlewareRef := by simpa using hs
      exact Or.inl this
    · intro s hs
      cases hs
  have h1 := refShaped_addOpt _ (getAuthMiddleware ing) h0
  have h2 := refShaped_addOpt _ (getHeadersMiddleware ing) h1
  have h3 := refShaped_addOpt _ (getWhiteList ing) h2
  have h4 : ∀ s ∈ (if (getStringValue ing.annotations annotationKubernetesRequestModifier ""
      != "") = true then
        (match parseRequestModifier ing.ns (getStringValue ing.annotations
          annotationKubernetesRequestModifier "") ing.name with
        | Except.ok m => addMw (addOpt (addOpt (addOpt (if (getStringValue ing.annotations
            annotationKubernetesSSLRedirect "" != "") = true then
            (([sslMiddlewareRef], []) : MwAcc) else ([], []))
            (getAuthMiddleware ing)) (getHeadersMiddleware ing)) (getWhiteList ing)) m
        | Except.error _ => addOpt (addOpt (addOpt (if (getStringValue ing.annotations
            annotationKubernetesSSLRedirect "" != "") = true then
            (([sslMiddlewareRef], []) : MwAcc) else ([], []))
            (getAuthMiddleware ing)) (getHeadersMiddleware ing)) (getWhiteList ing))
      else addOpt (addOpt (addOpt (if (getStringValue ing.annotations
        annotationKubernetesSSLRedirect "" != "") = true then
        (([sslMiddlewareRef], []) : MwAcc) else ([], []))
        (getAuthMiddleware ing)) (getHeadersMiddleware ing)) (getWhiteList ing)).1,
      refShaped s := by
    split
    · cases hpm : parseRequestModifier ing.ns (getStringValue ing.annotations
        annotationKubernetesRequestModifier "") ing.name with
      | ok m =>
        simp only [hpm]
        exact refShaped_addMw _ m h3
      | error e =>
        simp only [hpm]
        exact h3
    · exact h3
  split
  · exact refShaped_addOpt _ (getFrontendRedirect ing.ns ing.name ing.annotations) h4
  · exact h4

/-! ## Claim theorems -/

/-- C1: rule-type resolution behaves exactly as specified — an absent
rule-type annotation defaults to `PathPrefix` with no strip; `Path` and
`PathPrefix` are returned as-is with no strip; `PathStrip` resolves to `Path`
with implicit strip; `PathPrefixStrip` resolves to `PathPrefix` with implicit
strip; `ReplacePath` is accepted with no strip (the deprecation message is a
log-only effect); any other value yields an error, in which case
`convertIngress` aborts conversion of that resource, returning no rewritten
resource and no middlewares. -/
theorem extractRuleType_resolution (anns : List (String × String)) (ing : Ingress) :
    (lookupAnn anns annotationKubernetesRuleType = none →
      extractRuleType anns = Except.ok ("PathPrefix", false)) ∧
    (lookupAnn anns annotationKubernetesRuleType = some "Path" →
      extractRuleType anns = Except.ok ("Path", false)) ∧
    (lookupAnn anns annotationKubernetesRuleType = some "PathPrefix" →
      extractRuleType anns = Except.ok ("PathPrefix", false)) ∧
    (lookupAnn anns annotationKubernetesRuleType = some "PathStrip" →
      extractRuleType anns = Except.ok ("Path", true)) ∧
    (lookupAnn anns annotationKubernetesRuleType = some "PathPrefixStrip" →
      extractRuleType anns = Except.ok ("PathPrefix", true)) ∧
    (lookupAnn anns annotationKubernetesRuleType = some "ReplacePath" →
      extractRuleType anns = Except.ok ("ReplacePath", false)) ∧
    (∀ v, lookupAnn anns annotationKubernetesRuleType = some v →
      v ∉ (["Path", "PathPrefix", "PathStrip", "PathPrefixStrip", "ReplacePath"] :
        List String) →
      extractRuleType anns = Except.error ("cannot use non-matcher rule: " ++ v)) ∧
    (∀ e, extractRuleType ing.annotations = Except.error e → classGate ing = false →
      convertIngress ing = none) := by
  refine ⟨?_, ?_, ?_, ?_, ?_, ?_, ?_, ?_⟩
  · intro h
    unfold extractRuleType getStringValue
    rw [h]
    rfl
  · intro h
    unfold extractRuleType getStringValue
    rw [h]
    rfl
  · intro h
    unfold extractRuleType getStringValue
    rw [h]
    rfl
  · intro h
    unfold extractRuleType getStringValue
    rw [h]
    rfl
  · intro h
    unfold extractRuleType getStringValue
    rw [h]
    rfl
  · intro h
    unfold extractRuleType getStringValue
    rw [h]
    rfl
  · intro v h hmem
    have h1 : v ≠ "Path" := fun e => hmem (by simp [e])
    have h2 : v ≠ "PathPrefix" := fun e => hmem (by simp [e])
    have h3 : v ≠ "PathStrip" := fun e => hmem (by simp [e])
    have h4 : v ≠ "PathPrefixStrip" := fun e => hmem (by simp [e])
    have h5 : v ≠ "ReplacePath" := fun e => hmem (by simp [e])
    unfold extractRuleType getStringValue
    rw [h]
    simp [h1, h2, h3, h4, h5]
  · intro e herr hg
    have hc : collectRefs ing = none := by
      unfold collectRefs
      rw [herr]
    simp [convertIngress, hg, hc]

/-- Witness for C1 at a concrete non-matcher rule-type value. -/
theorem extractRuleType_resolution_witness :
    convertIngress (Ingress.mk "" "" [(annotationKubernetesRuleType, "Modifier")] []) =
      none := by
  have h := (extractRuleType_resolution [(annotationKubernetesRuleType, "Modifier")]
    (Ingress.mk "" "" [(annotationKubernetesRuleType, "Modifier")] [])).2.2.2.2.2.2.2
  exact h "cannot use non-matcher rule: Modifier" (by rfl) (by rfl)

/-- Partition facts of `extractItems` — the lengths add up and the two result
lists are exactly the complementary filters, in order. -/
theorem extractItems_parts (items : List YamlElt) :
    ∀ toKeep toConvert, extractItems items = some (toKeep, toConvert) →
      toKeep.length + toConvert.length = items.length ∧
      toKeep = items.filter (fun e => !(isConvElt e)) ∧
      toConvert.map YamlElt.obj = items.filter (fun e => isConvElt e) := by
  induction items with
  | nil =>
    intro toKeep toConvert h
    cases h
    exact ⟨rfl, rfl, rfl⟩
  | cons elt rest ih =>
    intro toKeep toConvert h
    cases elt with
    | nonMap s => simp [extractItems] at h
    | obj o =>
      simp only [extractItems] at h
      cases hrest : extractItems rest with
      | none => rw [hrest] at h; cases h
      | some pr =>
        obtain ⟨tk, tc⟩ := pr
        rw [hrest] at h
        dsimp only at h
        obtain ⟨l1, l2, l3⟩ := ih tk tc hrest
        by_cases ho : isIngressItem o = true
        · rw [if_pos ho] at h
          simp only [Option.some.injEq, Prod.mk.injEq] at h
          obtain ⟨hk, hc⟩ := h
          subst hk
          subst hc
          refine ⟨by simp; omega, ?_, ?_⟩
          · simp [List.filter_cons, isConvElt, ho, l2]
          · simp [List.filter_cons, isConvElt, ho]
            exact l3
        · rw [if_neg ho] at h
          simp only [Option.some.injEq, Prod.mk.injEq] at h
          obtain ⟨hk, hc⟩ := h
          subst hk
          subst hc
          have hob : isIngressItem o = false := by simpa using ho
          refine ⟨by simp; omega, ?_, ?_⟩
          · simp [List.filter_cons, isConvElt, hob, l2]
          · simp [List.filter_cons, isConvElt, hob]
            exact l3

/-- C2: the extraction step partitions the items exactly — every item is
classified either toKeep or toConvert (toConvert iff the apiVersion is one of
the two ingress identifiers and the kind is `Ingress`), the lengths add up
with no item dropped or duplicated, and when nothing is convertible the
fragment emitted by the list expansion is byte-identical to the input
fragment. -/
theorem extractItems_partition (items toKeep : List YamlElt) (toConvert : List UObj)
    (h : extractItems items = some (toKeep, toConvert)) :
    toKeep.length + toConvert.length = items.length ∧
    toKeep = items.filter (fun e => !(isConvElt e)) ∧
    toConvert.map YamlElt.obj = items.filter (fun e => isConvElt e) ∧
    (toConvert = [] → ∀ marshalResidual marshalItem part,
      expandListFragment marshalResidual marshalItem part items = some [part]) := by
  obtain ⟨l1, l2, l3⟩ := extractItems_parts items toKeep toConvert h
  refine ⟨l1, l2, l3, ?_⟩
  intro htc marshalResidual marshalItem part
  subst htc
  have hlen : items.length = toKeep.length := by
    simp only [List.length_nil, Nat.add_zero] at l1
    omega
  unfold expandListFragment
  rw [h]
  simp [hlen]

/-- Witness for C2 on a concrete two-element list with one convertible
item. -/
theorem extractItems_partition_witness :
    ([YamlElt.obj (UObj.mk "v1" "Service" "q")] : List YamlElt).length +
      ([UObj.mk "networking.k8s.io/v1" "Ingress" "p"] : List UObj).length =
      ([YamlElt.obj (UObj.mk "networking.k8s.io/v1" "Ingress" "p"),
        YamlElt.obj (UObj.mk "v1" "Service" "q")] : List YamlElt).length ∧
    ([YamlElt.obj (UObj.mk "v1" "Service" "q")] : List YamlElt) =
      ([YamlElt.obj (UObj.mk "networking.k8s.io/v1" "Ingress" "p"),
        YamlElt.obj (UObj.mk "v1" "Service" "q")] : List YamlElt).filter
        (fun e => !(isConvElt e)) :=
  ⟨(extractItems_partition [YamlElt.obj (UObj.mk "networking.k8s.io/v1" "Ingress" "p"),
      YamlElt.obj (UObj.mk "v1" "Service" "q")] _ _ (by rfl)).1,
   (extractItems_partition [YamlElt.obj (UObj.mk "networking.k8s.io/v1" "Ingress" "p"),
      YamlElt.obj (UObj.mk "v1" "Service" "q")] _ _ (by rfl)).2.1⟩

/-- C10: the unchecked type assertion of `extractItems` — when every element
of the items slice is a string-keyed map the function is total and returns
the partition; when any element is not such a map the function panics
(modelled as `none`). -/
theorem extractItems_totality (items : List YamlElt) :
    ((∀ e ∈ items, isMapElt e = true) → ∃ pr, extractItems items = some pr) ∧
    ((∃ e ∈ items, isMapElt e = false) → extractItems items = none) := by
  induction items with
  | nil =>
    refine ⟨fun _ => ⟨([], []), rfl⟩, ?_⟩
    intro h
    simp at h
  | cons elt rest ih =>
    constructor
    · intro hall
      obtain ⟨⟨tk, tc⟩, hpr⟩ := ih.1 (fun e he => hall e (List.mem_cons_of_mem elt he))
      cases elt with
      | nonMap s =>
        have hbad := hall (YamlElt.nonMap s) (List.mem_cons_self _ _)
        simp [isMapElt] at hbad
      | obj o =>
        simp only [extractItems]
        rw [hpr]
        dsimp only
        by_cases ho : isIngressItem o = true
        · exact ⟨(tk, o :: tc), by rw [if_pos ho]⟩
        · exact ⟨(YamlElt.obj o :: tk, tc), by rw [if_neg ho]⟩
    · intro hex
      obtain ⟨e, hmem, hbad⟩ := hex
      rcases List.mem_cons.mp hmem with rfl | htail
      · cases e with
        | nonMap s => rfl
        | obj o => simp [isMapElt] at hbad
      · cases elt with
        | nonMap s => rfl
        | obj o =>
          have hnone : extractItems rest = none := ih.2 ⟨e, htail, hbad⟩
          simp [extractItems, hnone]

/-- Witness for C10 at a concrete non-map element. -/
theorem extractItems_totality_witness :
    extractItems [YamlElt.nonMap "x"] = none :=
  (extractItems_totality [YamlElt.nonMap "x"]).2
    ⟨YamlElt.nonMap "x", by simp, by rfl⟩

/-- C3: for every conversion that returns a result, the middleware-chain
annotation joins the references in synthesis order (the order accumulated by
`collectRefs`, steps 4-11), while the returned middleware resource list is
the by-name ascending sort of the synthesized middlewares — a permutation of
them, sorted, independent of the reference order. -/
theorem convertIngress_refs_order_mids_sorted (ing : Ingress) (names : List String)
    (mids : List Middleware) (hg : classGate ing = false)
    (hc : collectRefs ing = some (names, mids)) :
    ∃ ni objs, convertIngress ing = some (ni, objs) ∧
      objs = sortByName mids ∧
      List.Perm objs mids ∧
      List.Pairwise nameLe objs ∧
      (names ≠ [] → List.lookup routerMiddlewaresKey ni.annotations =
        some (joinComma names)) := by
  unfold convertIngress
  rw [hg, hc]
  simp only [Bool.false_eq_true, if_false]
  refine ⟨_, _, rfl, rfl, perm_sortByName mids, pairwise_sortByName mids, ?_⟩
  intro hne
  have hlen : 0 < names.length := List.length_pos.mpr hne
  rw [if_pos hlen]
  exact lookup_setAnn _ _ _

/-- Witness for C3 on a concrete resource synthesizing the SSL reference and
one whitelist middleware. -/
theorem convertIngress_refs_order_mids_sorted_witness :
    ∃ ni objs,
      convertIngress (Ingress.mk "ns" "app" [(annotationKubernetesSSLRedirect, "true"),
        (annotationKubernetesWhiteListSourceRange, "10.0.0.0/8")] []) = some (ni, objs) ∧
      objs = sortByName [Middleware.mk "ns" "app-whitelist" "IPWhiteList"] ∧
      List.Perm objs [Middleware.mk "ns" "app-whitelist" "IPWhiteList"] ∧
      List.Pairwise nameLe objs ∧
      ((["ssl-redirect@file", "ns-app-whitelist@kubernetescrd"] : List String) ≠ [] →
        List.lookup routerMiddlewaresKey ni.annotations =
          some (joinComma ["ssl-redirect@file", "ns-app-whitelist@kubernetescrd"])) :=
  convertIngress_refs_order_mids_sorted
    (Ingress.mk "ns" "app" [(annotationKubernetesSSLRedirect, "true"),
      (annotationKubernetesWhiteListSourceRange, "10.0.0.0/8")] [])
    ["ssl-redirect@file", "ns-app-whitelist@kubernetescrd"]
    [Middleware.mk "ns" "app-whitelist" "IPWhiteList"] (by rfl) (by rfl)

/-- C4 counterexample: a resource with rule type `ReplacePath` and a
non-empty rewrite-target annotation but no rules converts successfully — the
incompatibility check sits inside the per-rule, per-path loop, so conversion
does not fail for every such resource as claimed. -/
theorem convertIngress_replacePath_rewrite_no_rules :
    convertIngress (Ingress.mk "ns" "app" [(annotationKubernetesRuleType, "ReplacePath"),
      (annotationKubernetesRewriteTarget, "/new")] []) =
    some (Ingress.mk "ns" "app" [(annotationKubernetesRuleType, "ReplacePath"),
      (annotationKubernetesRewriteTarget, "/new")] [], []) := by
  decide

/-- C4 (amended): a resource with rule type `ReplacePath`, a non-empty
rewrite-target annotation, at least one rule containing a non-empty path, and
a non-hostile ingress class fails conversion resource-locally —
`convertIngress` produces no middlewares and no rewritten resource. -/
theorem convertIngress_replacePath_rewrite_aborts (ing : Ingress) (w : String)
    (hg : classGate ing = false)
    (hrt : getStringValue ing.annotations annotationKubernetesRuleType "PathPrefix" =
      "ReplacePath")
    (hrw : getStringValue ing.annotations annotationKubernetesRewriteTarget "" = w)
    (hw : w ≠ "")
    (hp : ∃ r ∈ ing.rules, ∃ p ∈ r.paths, p.path ≠ "") :
    convertIngress ing = none := by
  have hex : extractRuleType ing.annotations = Except.ok ("ReplacePath", false) := by
    unfold extractRuleType
    rw [hrt]
    rfl
  have hcr : collectRefs ing = none := by
    unfold collectRefs
    rw [hex]
    exact convertRules_abort ing false w hrw hw ing.rules (preLoopAcc ing) hp
  simp [convertIngress, hg, hcr]

/-- Witness for the amended C4 at a concrete resource with one non-empty
path. -/
theorem convertIngress_replacePath_rewrite_aborts_witness :
    convertIngress (Ingress.mk "ns" "app" [(annotationKubernetesRuleType, "ReplacePath"),
      (annotationKubernetesRewriteTarget, "/new")]
      [IngressRule.mk "h.com" [HTTPPath.mk "/x"]]) = none :=
  convertIngress_replacePath_rewrite_aborts
    (Ingress.mk "ns" "app" [(annotationKubernetesRuleType, "ReplacePath"),
      (annotationKubernetesRewriteTarget, "/new")]
      [IngressRule.mk "h.com" [HTTPPath.mk "/x"]])
    "/new" (by rfl) (by rfl) (by rfl) (by decide)
    ⟨IngressRule.mk "h.com" [HTTPPath.mk "/x"], by simp,
      HTTPPath.mk "/x", by simp, by decide⟩

/-- C5 counterexample: the normalizer keeps hyphens as field characters, so
the input `"-a--b-"` is returned unchanged — the output has a leading
hyphen, a trailing hyphen and a duplicate hyphen, refuting the claimed
hyphen-placement guarantees. -/
theorem normalizeObjectName_hyphens_counterexample :
    normalizeObjectName Char.isAlpha Char.isDigit "-a--b-" = "-a--b-" ∧
    hyphenTidy (normalizeObjectName Char.isAlpha Char.isDigit "-a--b-") = false := by
  exact ⟨by decide, by decide⟩

/-- C5 (amended): the normalizer is total (a function on all strings) and
idempotent, and its output contains only letters, digits and hyphens — but
leading, trailing and duplicate hyphens can remain, since hyphens are kept
characters rather than separators.  Stated for arbitrary letter and number
classifiers, hence for the source's Unicode tables. -/
theorem normalizeObjectName_total_idem_charset (isL isN : Char → Bool) (name : String) :
    normalizeObjectName isL isN (normalizeObjectName isL isN name) =
      normalizeObjectName isL isN name ∧
    ∀ c ∈ (normalizeObjectName isL isN name).data, (isL c || isN c || (c == '-')) = true := by
  refine ⟨normalizeObjectName_idem_aux isL isN name, ?_⟩
  intro c hc
  exact sepOf_false_charset isL isN c (normalizeObjectName_chars isL isN name c hc)

/-- Witness for the amended C5 at a concrete input and character. -/
theorem normalizeObjectName_total_idem_charset_witness :
    normalizeObjectName Char.isAlpha Char.isDigit
        (normalizeObjectName Char.isAlpha Char.isDigit "a_b") =
      normalizeObjectName Char.isAlpha Char.isDigit "a_b" ∧
    (Char.isAlpha 'a' || Char.isDigit 'a' || ('a' == '-')) = true :=
  ⟨(normalizeObjectName_total_idem_charset Char.isAlpha Char.isDigit "a_b").1,
   (normalizeObjectName_total_idem_charset Char.isAlpha Char.isDigit "a_b").2 'a'
     (by decide)⟩

/-- C6: a resource whose ingress-class annotation is present, non-empty and
does not contain the marker substring `traefik` is returned structurally
unchanged with an empty middleware list. -/
theorem convertIngress_foreign_class_noop (ing : Ingress) (v : String)
    (hl : lookupAnn ing.annotations annotationKubernetesIngressClass = some v)
    (hv : v ≠ "") (ht : goContains v "traefik" = false) :
    convertIngress ing = some (ing, []) := by
  have hgate : classGate ing = true := by
    unfold classGate getStringValue
    rw [hl]
    simp [ht, length_pos_of_ne_empty v hv]
  simp [convertIngress, hgate]

/-- Witness for C6 with the ingress-class annotation set to `nginx`. -/
theorem convertIngress_foreign_class_noop_witness :
    convertIngress (Ingress.mk "ns" "app" [(annotationKubernetesIngressClass, "nginx")] []) =
      some (Ingress.mk "ns" "app" [(annotationKubernetesIngressClass, "nginx")] [], []) :=
  convertIngress_foreign_class_noop
    (Ingress.mk "ns" "app" [(annotationKubernetesIngressClass, "nginx")] [])
    "nginx" (by rfl) (by decide) (by decide)

/-- C7 counterexample: a fragment that fails the generic YAML decode
(`createUnstructured`, a malformed document) aborts the conversion of the
whole file with an error — it is not kept verbatim and later fragments are
not processed, refuting that a fragment-decode failure is never fatal for
the file. -/
theorem fragment_decode_failure_fatal :
    convertFragments fcBad ["bad", "keep"] = Except.error "error decoding YAML" := by
  rfl

/-- C7 (amended): a fragment that decodes generically (not a List) but fails
the scheme decode against the known schemas is kept verbatim and processing
of the remaining fragments continues; only a generic-decode (malformed
document) failure aborts the file. -/
theorem fragment_schema_failure_kept (fc : FileCodec) (part : String) (u : Unstruct)
    (e : String) (rest : List String)
    (hne : (part == "\n" || part == "") = false)
    (hu : fc.createUnstr part = Except.ok u) (hl : u.isList = false)
    (hp : fc.parseObj part = Except.error e) :
    convertFragments fc (part :: rest) =
      Except.map (fun more => part :: more) (convertFragments fc rest) := by
  have hpf : processFragment fc part = Except.ok [part] := by
    unfold processFragment
    rw [hu]
    dsimp only
    rw [hl]
    simp [hp]
  conv_lhs => unfold convertFragments
  rw [hne]
  simp only [Bool.false_eq_true, if_false]
  rw [hpf]
  cases hrest : convertFragments fc rest with
  | error e2 => simp [Except.map]
  | ok more => simp [Except.map]

/-- Witness for the amended C7 at a concrete schema-decode failure. -/
theorem fragment_schema_failure_kept_witness :
    convertFragments fcBad ["frag"] =
      Except.map (fun more => "frag" :: more) (convertFragments fcBad []) :=
  fragment_schema_failure_kept fcBad "frag" (Unstruct.mk false) "no kind registered" []
    (by decide) (by rfl) (by rfl) (by rfl)

/-- C8: a resource whose only annotation is a non-empty SSL-redirect
directive gets exactly the static `ssl-redirect@file` reference as its
middleware-chain annotation (once), and the returned middleware resource
list is empty — the static reference is not a synthesized resource. -/
theorem convertIngress_ssl_only (nsv nmv v : String) (rules : List IngressRule)
    (hv : v ≠ "") :
    convertIngress (Ingress.mk nsv nmv [(annotationKubernetesSSLRedirect, v)] rules) =
      some (Ingress.mk nsv nmv [(annotationKubernetesSSLRedirect, v),
        (routerMiddlewaresKey, sslMiddlewareRef)] rules, []) := by
  have hvb : (v != "") = true := by simp [bne_iff_ne, hv]
  have hrw : getStringValue [(annotationKubernetesSSLRedirect, v)]
      annotationKubernetesRewriteTarget "" = "" := by
    simp [getStringValue, lookupAnn, List.lookup, annotationKubernetesSSLRedirect, annotationKubernetesRewriteTarget, annotationKubernetesAppRoot, annotationKubernetesIngressClass, annotationKubernetesFrontendEntryPoints, annotationKubernetesRequestModifier, annotationKubernetesAuthSecret, annotationKubernetesWhiteListSourceRange, annotationKubernetesRuleType, routerMiddlewaresKey]
  have har : getStringValue [(annotationKubernetesSSLRedirect, v)]
      annotationKubernetesAppRoot "" = "" := by
    simp [getStringValue, lookupAnn, List.lookup, annotationKubernetesSSLRedirect, annotationKubernetesRewriteTarget, annotationKubernetesAppRoot, annotationKubernetesIngressClass, annotationKubernetesFrontendEntryPoints, annotationKubernetesRequestModifier, annotationKubernetesAuthSecret, annotationKubernetesWhiteListSourceRange, annotationKubernetesRuleType, routerMiddlewaresKey]
  have hpre : preLoopAcc (Ingress.mk nsv nmv [(annotationKubernetesSSLRedirect, v)] rules) =
      ([sslMiddlewareRef], []) := by
    unfold preLoopAcc
    simp [getStringValue, lookupAnn, List.lookup, hvb, getAuthMiddleware,
      getHeadersMiddleware, getWhiteList, getFrontendRedirect, headerAnnotationKeys, addOpt,
      annotationKubernetesSSLRedirect, annotationKubernetesRewriteTarget, annotationKubernetesAppRoot, annotationKubernetesIngressClass, annotationKubernetesFrontendEntryPoints, annotationKubernetesRequestModifier, annotationKubernetesAuthSecret, annotationKubernetesWhiteListSourceRange, annotationKubernetesRuleType, routerMiddlewaresKey]
  have hex : extractRuleType [(annotationKubernetesSSLRedirect, v)] =
      Except.ok ("PathPrefix", false) := by
    simp [extractRuleType, getStringValue, lookupAnn, List.lookup, annotationKubernetesSSLRedirect, annotationKubernetesRewriteTarget, annotationKubernetesAppRoot, annotationKubernetesIngressClass, annotationKubernetesFrontendEntryPoints, annotationKubernetesRequestModifier, annotationKubernetesAuthSecret, annotationKubernetesWhiteListSourceRange, annotationKubernetesRuleType, routerMiddlewaresKey]
  have hcr : collectRefs (Ingress.mk nsv nmv [(annotationKubernetesSSLRedirect, v)] rules) =
      some ([sslMiddlewareRef], []) := by
    unfold collectRefs
    dsimp only
    rw [hex, hpre]
    exact convertRules_inert _ "PathPrefix" hrw har rules ([sslMiddlewareRef], [])
  have hgate : classGate (Ingress.mk nsv nmv [(annotationKubernetesSSLRedirect, v)] rules) =
      false := by
    simp [classGate, getStringValue, lookupAnn, List.lookup, annotationKubernetesSSLRedirect, annotationKubernetesRewriteTarget, annotationKubernetesAppRoot, annotationKubernetesIngressClass, annotationKubernetesFrontendEntryPoints, annotationKubernetesRequestModifier, annotationKubernetesAuthSecret, annotationKubernetesWhiteListSourceRange, annotationKubernetesRuleType, routerMiddlewaresKey]
  unfold convertIngress
  rw [hgate, hcr]
  simp [getStringValue, lookupAnn, List.lookup, setAnn, joinComma, sortByName, annotationKubernetesSSLRedirect, annotationKubernetesRewriteTarget, annotationKubernetesAppRoot, annotationKubernetesIngressClass, annotationKubernetesFrontendEntryPoints, annotationKubernetesRequestModifier, annotationKubernetesAuthSecret, annotationKubernetesWhiteListSourceRange, annotationKubernetesRuleType, routerMiddlewaresKey]

/-- Witness for C8 at a concrete SSL-redirect-only resource. -/
theorem convertIngress_ssl_only_witness :
    convertIngress (Ingress.mk "ns" "app" [(annotationKubernetesSSLRedirect, "true")] []) =
      some (Ingress.mk "ns" "app" [(annotationKubernetesSSLRedirect, "true"),
        (routerMiddlewaresKey, sslMiddlewareRef)] [], []) :=
  convertIngress_ssl_only "ns" "app" "true" [] (by decide)

/-- Every string of the claimed `namespace-name@kubernetescrd` form ends with
the `@kubernetescrd` suffix. -/
theorem crdShape_ends (a b : String) :
    strEnds (a ++ "-" ++ b ++ "@" ++ middlewareSuffix) ("@" ++ middlewareSuffix) = true := by
  unfold strEnds
  have h1 : (a ++ "-" ++ b ++ "@" ++ middlewareSuffix).data =
      (a.data ++ "-".data ++ b.data ++ "@".data) ++ middlewareSuffix.data := by
    simp [strDataAppend]
  have h2 : ("@" ++ middlewareSuffix).data = "@".data ++ middlewareSuffix.data :=
    strDataAppend _ _
  rw [h1, h2, List.reverse_append, List.reverse_append]
  have h3 : (a.data ++ "-".data ++ b.data ++ "@".data).reverse =
      "@".data.reverse ++ (a.data ++ "-".data ++ b.data).reverse := by
    rw [List.reverse_append]
  rw [h3, ← List.append_assoc]
  exact leadsWith_self_append _ _

/-- C9 counterexample: the SSL-redirect directive places the static reference
`ssl-redirect@file` into the comma-joined router-middlewares annotation, and
that string does not end in `@kubernetescrd`, so it is not of the claimed
`namespace-name@kubernetescrd` form (see `crdShape_ends`). -/
theorem middleware_ref_ssl_not_crd :
    convertIngress (Ingress.mk "ns" "web" [(annotationKubernetesSSLRedirect, "true")] []) =
      some (Ingress.mk "ns" "web" [(annotationKubernetesSSLRedirect, "true"),
        (routerMiddlewaresKey, sslMiddlewareRef)] [], []) ∧
    strEnds sslMiddlewareRef ("@" ++ middlewareSuffix) = false := by
  exact ⟨by decide, by decide⟩

/-- C9 (amended): every middleware reference accumulated for the
router-middlewares annotation is either the static `ssl-redirect@file`
reference or of the form `namespace ++ "-" ++ name ++ "@" ++
middlewareSuffix`. -/
theorem middleware_refs_shape (ing : Ingress) (names : List String)
    (mids : List Middleware) (h : collectRefs ing = some (names, mids)) :
    ∀ s ∈ names, s = sslMiddlewareRef ∨
      ∃ a b, s = a ++ "-" ++ b ++ "@" ++ middlewareSuffix := by
  unfold collectRefs at h
  cases hex : extractRuleType ing.annotations with
  | error e => rw [hex] at h; cases h
  | ok pr =>
    obtain ⟨rt, strip⟩ := pr
    rw [hex] at h
    dsimp only at h
    exact refShaped_convertRules ing rt strip ing.rules (preLoopAcc ing) (names, mids) h
      (refShaped_preLoopAcc ing)

/-- Witness for the amended C9 at a concrete synthesized auth reference. -/
theorem middleware_refs_shape_witness :
    "ns-app-basic-auth@kubernetescrd" = sslMiddlewareRef ∨
      ∃ a b, "ns-app-basic-auth@kubernetescrd" =
        a ++ "-" ++ b ++ "@" ++ middlewareSuffix :=
  middleware_refs_shape
    (Ingress.mk "ns" "app" [(annotationKubernetesAuthSecret, "sec")] [])
    ["ns-app-basic-auth@kubernetescrd"]
    [Middleware.mk "ns" "app-basic-auth" "BasicAuth"]
    (by decide) "ns-app-basic-auth@kubernetescrd" (by simp)
